import Mathlib

/-!
Verification of the PDF reader's text-normalization and page-segmentation core.

The source under scrutiny is the Python extraction core embedded in
`src/frontend/src/App.jsx` (the integration guide section): the function
`clean_text` (filtering on `IGNORE_PHRASES`, then a single-pass merge of
multi-line numbered comments) and the function `extract_pdf_smart`
(per-page extraction with a hard-coded two-column split of page 3).

Python strings are embedded as `List Char` (with `String` wrappers at the
interface), Python's `str.split('\n')`, `str.strip()`, `str.lower()`,
substring test `in`, and the regex `^\d+\.?\s` are each translated into
explicit executable functions below.
-/

/-- The whitespace class stripped by Python's `str.strip()` and matched by the
regex class `\s` (ASCII): space, tab, newline, carriage return, vertical tab,
form feed. -/
def pyIsSpace (c : Char) : Bool :=
  c == ' ' || c == '\t' || c == '\n' || c == '\r' ||
    c == Char.ofNat 11 || c == Char.ofNat 12

/-- ASCII lower-casing of one character, as `str.lower()` acts on the ASCII
range (all strings in this development are ASCII). -/
def pyLowerChar (c : Char) : Char :=
  if 65 ≤ c.toNat && c.toNat ≤ 90 then Char.ofNat (c.toNat + 32) else c

/-- `str.lower()`. -/
def pyLower (s : List Char) : List Char := s.map pyLowerChar

/-- Boolean test that the first list is a leading segment of the second. -/
def startsWithLC : List Char → List Char → Bool
  | [], _ => true
  | _ :: _, [] => false
  | a :: as, b :: bs => a == b && startsWithLC as bs

/-- Python's substring test `needle in hay` (contiguous substring). -/
def containsSub (needle : List Char) : List Char → Bool
  | [] => needle.isEmpty
  | c :: t => startsWithLC needle (c :: t) || containsSub needle t

/-- Python's `text.split('\n')` (App.jsx line 409): split on every newline;
the result is never empty, and `"".split('\n') = [""]`. -/
def splitNl : List Char → List (List Char)
  | [] => [[]]
  | c :: t =>
    if c == '\n' then [] :: splitNl t
    else
      match splitNl t with
      | [] => [[c]]
      | g :: gs => (c :: g) :: gs

/-- Python's `sep.join(parts)` (App.jsx line 447 uses `"\n".join`). -/
def joinWith (sep : List Char) : List (List Char) → List Char
  | [] => []
  | [g] => g
  | g :: g2 :: gs => g ++ sep ++ joinWith sep (g2 :: gs)

/-- Drop the longest run of `p`-characters at the END of the list
(the right half of Python's `str.strip()`). -/
def dropTrail (p : Char → Bool) : List Char → List Char
  | [] => []
  | c :: t =>
    if (dropTrail p t).isEmpty && p c then [] else c :: dropTrail p t

/-- Python's `line.strip()` (App.jsx lines 420-421): remove leading and
trailing whitespace. -/
def pyStrip (s : List Char) : List Char :=
  dropTrail pyIsSpace (s.dropWhile pyIsSpace)

/-- Whether a list starts with a whitespace character (the `\s` at the end of
the header regex). -/
def headSpace : List Char → Bool
  | [] => false
  | d :: _ => pyIsSpace d

/-- The part of the header regex `^\d+\.?\s` after the digit run: an optional
period followed by a whitespace character. -/
def isHeaderRest : List Char → Bool
  | [] => false
  | c :: t => if c == '.' then headSpace t else pyIsSpace c

/-- Python's `re.match(r'^\d+\.?\s', line)` as a Bool (App.jsx line 430):
one or more digits, an optional period, then a whitespace character, at the
start of the line.  The regex is deterministic here because a digit is
neither `.` nor whitespace, so no backtracking case arises. -/
def isHeader : List Char → Bool
  | [] => false
  | c :: t => c.isDigit && isHeaderRest ((c :: t).dropWhile Char.isDigit)

/-- The filter predicate of `clean_text`'s first pass (App.jsx lines 413-421):
keep a line iff no ignore phrase occurs case-insensitively inside it and the
line is non-blank after stripping. -/
def keepLine (ignores : List (List Char)) (line : List Char) : Bool :=
  !(ignores.any fun p => containsSub (pyLower p) (pyLower line)) &&
    !(pyStrip line).isEmpty

/-- The `kept_lines` list built by `clean_text`'s first pass: surviving lines,
stripped (App.jsx lines 409-421). -/
def keptLines (text : List Char) (ignores : List (List Char)) : List (List Char) :=
  ((splitNl text).filter (keepLine ignores)).map pyStrip

/-- The second pass of `clean_text` (App.jsx lines 425-445): the loop over
`kept_lines` with the `current_comment` accumulator.  `cur = []` models the
falsy empty string `current_comment = ""`. -/
def combineGo : List (List Char) → List Char → List (List Char)
  | [], cur => if cur.isEmpty then [] else [cur]
  | l :: ls, cur =>
    if isHeader l then
      (if cur.isEmpty then [] else [cur]) ++ combineGo ls l
    else if cur.isEmpty then
      l :: combineGo ls cur
    else
      combineGo ls (cur ++ ' ' :: l)

/-- The `combined_lines` list produced by `clean_text` before the final join
(App.jsx lines 425-445). -/
def cleanLinesLC (text : List Char) (ignores : List (List Char)) : List (List Char) :=
  combineGo (keptLines text ignores) []

/-- `clean_text` on character lists (App.jsx lines 399-447), including the
`if not text: return ""` guard at line 405. -/
def clean_textLC (text : List Char) (ignores : List (List Char)) : List Char :=
  if text.isEmpty then [] else joinWith ['\n'] (cleanLinesLC text ignores)

/-- `clean_text` at the `String` interface.  The ignore-phrase list is passed
explicitly (in the source it is the module-level `IGNORE_PHRASES`). -/
def clean_text (text : String) (ignores : List String) : String :=
  String.mk (clean_textLC text.data (ignores.map String.data))

/-- `clean_text` including the `None` input accepted by the Python falsy check
`if not text` (App.jsx line 405). -/
def clean_text_opt : Option String → List String → String
  | none, _ => ""
  | some s, ignores => clean_text s ignores

/-- The record list of the normalized output, at the `String` interface. -/
def cleanLines (text : String) (ignores : List String) : List String :=
  (cleanLinesLC text.data (ignores.map String.data)).map String.mk

/-- The filter predicate at the `String` interface. -/
def keeps (ignores : List String) (line : String) : Bool :=
  keepLine (ignores.map String.data) line.data

/-- The configured ignore phrases (App.jsx lines 389-397). -/
def IGNORE_PHRASES : List String :=
  ["ABN 99 657 158 524",
   "6/23 Ashtan Pl",
   "admin@accurateindustries.com.au",
   "www.accurateindustries.com.au",
   "1300 101 666",
   "Accurate Industries",
   "Page"]

/-- Join a group of lines with single spaces: the text a merged comment record
carries (`current_comment += " " + line`, App.jsx line 438). -/
def joinSp (g : List (List Char)) : List Char := joinWith [' '] g

/-- Ghost variant of `combineGo` that keeps each record as the list of kept
lines it merges, instead of their space-join.  Used to state conservation. -/
def combineGroupsGo : List (List Char) → List (List Char) → List (List (List Char))
  | [], cur => if cur.isEmpty then [] else [cur]
  | l :: ls, cur =>
    if isHeader l then
      (if cur.isEmpty then [] else [cur]) ++ combineGroupsGo ls [l]
    else if cur.isEmpty then
      [l] :: combineGroupsGo ls cur
    else
      combineGroupsGo ls (cur ++ [l])

/-- Last character of a list, if any. -/
def lastCh : List Char → Option Char
  | [] => none
  | [c] => some c
  | _ :: c :: t => lastCh (c :: t)

/-- A PDF page as the excluded pdfplumber collaborator presents it (spec §6):
a width, a height, and a text-extraction capability taking an optional crop
rectangle `(x0, y0, x1, y1)` and returning the extracted text or `None`. -/
structure Page where
  width : ℚ
  height : ℚ
  extractText : Option (ℚ × ℚ × ℚ × ℚ) → Option String

/-- One output record of `extract_pdf_smart` (App.jsx lines 459-467):
`{"page": ..., "type": ..., "content": ...}`. -/
structure ExtractedSection where
  page : Nat
  type : String
  content : String
deriving DecidableEq

/-- Python's `page.extract_text() or ""` (App.jsx lines 488, 493, 507):
`None` (and the falsy empty string) becomes `""`. -/
def orEmpty : Option String → String
  | none => ""
  | some s => s

/-- `left_bbox = (0, 0, width / 2, height)` (App.jsx line 486). -/
def left_bbox (width height : ℚ) : ℚ × ℚ × ℚ × ℚ := (0, 0, width / 2, height)

/-- `right_bbox = (width / 2, 0, width, height)` (App.jsx line 491). -/
def right_bbox (width height : ℚ) : ℚ × ℚ × ℚ × ℚ := (width / 2, 0, width, height)

/-- The loop body of `extract_pdf_smart` (App.jsx lines 478-512): `i` is the
0-based enumeration index, `page_num = i + 1`; page 3 is split into the two
half-page crops when `split_page_3` is set, every other page is extracted
whole. -/
def extract_pdf_smart_go (ignores : List String) (split_page_3 : Bool) :
    Nat → List Page → List ExtractedSection
  | _, [] => []
  | i, p :: ps =>
    if split_page_3 && (i + 1 == 3) then
      ⟨i + 1, "As Found (Left)",
        clean_text (orEmpty (p.extractText (some (left_bbox p.width p.height)))) ignores⟩ ::
      ⟨i + 1, "As Left (Right)",
        clean_text (orEmpty (p.extractText (some (right_bbox p.width p.height)))) ignores⟩ ::
      extract_pdf_smart_go ignores split_page_3 (i + 1) ps
    else
      ⟨i + 1, "Full Page", clean_text (orEmpty (p.extractText none)) ignores⟩ ::
      extract_pdf_smart_go ignores split_page_3 (i + 1) ps

/-- `extract_pdf_smart` (App.jsx lines 450-514), with the pdfplumber document
modelled as its page list and the I/O open/bytes handling (out of scope per
spec §1) elided. -/
def extract_pdf_smart (pages : List Page) (split_page_3 : Bool)
    (ignores : List String) : List ExtractedSection :=
  extract_pdf_smart_go ignores split_page_3 0 pages

/-- The per-page block layout exactly as claim C6 and spec §4.1 word it:
every page other than page 3 yields one `"Full Page"` block; page 3 yields
the block `"As Found (Left)"` from the rectangle `(0, 0, width/2, height)`
followed by `"As Left (Right)"` from `(width/2, 0, width, height)`. -/
def layoutSpec (ignores : List String) (ip : Nat × Page) : List ExtractedSection :=
  if ip.1 + 1 = 3 then
    [⟨3, "As Found (Left)",
       clean_text (orEmpty (ip.2.extractText (some (0, 0, ip.2.width / 2, ip.2.height)))) ignores⟩,
     ⟨3, "As Left (Right)",
       clean_text (orEmpty (ip.2.extractText (some (ip.2.width / 2, 0, ip.2.width, ip.2.height)))) ignores⟩]
  else
    [⟨ip.1 + 1, "Full Page", clean_text (orEmpty (ip.2.extractText none)) ignores⟩]

/-- The closed axis-aligned rectangle named by a bbox `(x0, y0, x1, y1)`,
as a point set. -/
def rectSet (b : ℚ × ℚ × ℚ × ℚ) : Set (ℚ × ℚ) :=
  {q | b.1 ≤ q.1 ∧ q.1 ≤ b.2.2.1 ∧ b.2.1 ≤ q.2 ∧ q.2 ≤ b.2.2.2}

/-! ### Basic lemmas about the string primitives -/

theorem dropTrail_eq_nil_forall {p : Char → Bool} :
    ∀ {l : List Char}, dropTrail p l = [] → ∀ c ∈ l, p c = true := by
  intro l
  induction l with
  | nil => intro _ c hc; cases hc
  | cons a t ih =>
    intro h c hc
    rw [dropTrail] at h
    split at h
    · rename_i hcond
      rcases List.mem_cons.mp hc with rfl | hct
      · exact (Bool.and_eq_true _ _).mp hcond |>.2
      · exact ih (List.isEmpty_iff.mp ((Bool.and_eq_true _ _).mp hcond).1) c hct
    · exact absurd h (List.cons_ne_nil _ _)

theorem dropTrail_eq_nil_of_forall {p : Char → Bool} :
    ∀ {l : List Char}, (∀ c ∈ l, p c = true) → dropTrail p l = [] := by
  intro l
  induction l with
  | nil => intro _; rfl
  | cons a t ih =>
    intro h
    rw [dropTrail, ih fun c hc => h c (List.mem_cons_of_mem a hc)]
    simp [h a (List.mem_cons_self a t)]

theorem dropTrail_exists_suffix {p : Char → Bool} :
    ∀ l : List Char, ∃ b, l = dropTrail p l ++ b := by
  intro l
  induction l with
  | nil => exact ⟨[], rfl⟩
  | cons a t ih =>
    rw [dropTrail]
    split
    · exact ⟨a :: t, rfl⟩
    · obtain ⟨b, hb⟩ := ih
      exact ⟨b, by rw [List.cons_append, ← hb]⟩

theorem dropTrail_idem {p : Char → Bool} :
    ∀ l : List Char, dropTrail p (dropTrail p l) = dropTrail p l := by
  intro l
  induction l with
  | nil => rfl
  | cons a t ih =>
    rw [dropTrail]
    split
    · rfl
    · rename_i hcond
      rw [dropTrail, ih]
      simp only [Bool.and_eq_true] at hcond ⊢
      split
      · rename_i h2; exact absurd h2 hcond
      · rfl

theorem length_dropTrail_le {p : Char → Bool} :
    ∀ l : List Char, (dropTrail p l).length ≤ l.length := by
  intro l
  induction l with
  | nil => exact Nat.le_refl _
  | cons a t ih =>
    rw [dropTrail]
    split
    · exact Nat.zero_le _
    · simpa using Nat.succ_le_succ ih

theorem length_dropWhile_le' {p : Char → Bool} :
    ∀ l : List Char, (l.dropWhile p).length ≤ l.length := by
  intro l
  induction l with
  | nil => exact Nat.le_refl _
  | cons a t ih =>
    rw [List.dropWhile_cons]
    split
    · exact Nat.le_trans ih (Nat.le_succ _)
    · exact Nat.le_refl _

theorem dropWhile_self_head {p : Char → Bool} {h : Char} {t : List Char}
    (hd : (h :: t).dropWhile p = h :: t) : p h = false := by
  rw [List.dropWhile_cons] at hd
  split at hd
  · rename_i hph
    have hlen := congrArg List.length hd
    have hle := length_dropWhile_le' (p := p) t
    simp at hlen
    omega
  · rename_i hph; simpa using hph

theorem dropWhile_eq_self_parts {l : List Char}
    (h : pyStrip l = l) :
    l.dropWhile pyIsSpace = l ∧ dropTrail pyIsSpace l = l := by
  unfold pyStrip at h
  have h1 : (l.dropWhile pyIsSpace).length ≤ l.length := length_dropWhile_le' l
  have h2 : (dropTrail pyIsSpace (l.dropWhile pyIsSpace)).length ≤
      (l.dropWhile pyIsSpace).length := length_dropTrail_le _
  have hlen : (l.dropWhile pyIsSpace).length = l.length := by
    have := congrArg List.length h
    omega
  have hdw : l.dropWhile pyIsSpace = l := by
    have hsplit := List.takeWhile_append_dropWhile pyIsSpace l
    have htl : (l.takeWhile pyIsSpace).length = 0 := by
      have := congrArg List.length hsplit
      rw [List.length_append] at this
      omega
    have : l.takeWhile pyIsSpace = [] := List.eq_nil_of_length_eq_zero htl
    rw [this] at hsplit
    simpa using hsplit
  refine ⟨hdw, ?_⟩
  rw [hdw] at h
  exact h

theorem pyStrip_idem (l : List Char) : pyStrip (pyStrip l) = pyStrip l := by
  unfold pyStrip
  have hidem : (l.dropWhile pyIsSpace).dropWhile pyIsSpace = l.dropWhile pyIsSpace :=
    List.dropWhile_idempotent pyIsSpace l
  have hdw : (dropTrail pyIsSpace (l.dropWhile pyIsSpace)).dropWhile pyIsSpace =
      dropTrail pyIsSpace (l.dropWhile pyIsSpace) := by
    rcases hdz : l.dropWhile pyIsSpace with _ | ⟨h, t⟩
    · rfl
    · rw [hdz] at hidem
      have hhead : pyIsSpace h = false := dropWhile_self_head hidem
      rw [dropTrail]
      split
      · rfl
      · rw [List.dropWhile_cons, hhead]; simp
  rw [hdw, dropTrail_idem]

theorem pyStrip_sub {l : List Char} {c : Char} (hc : c ∈ pyStrip l) : c ∈ l := by
  unfold pyStrip at hc
  obtain ⟨b, hb⟩ := dropTrail_exists_suffix (p := pyIsSpace) (l.dropWhile pyIsSpace)
  have h1 : c ∈ l.dropWhile pyIsSpace := by
    rw [hb]; exact List.mem_append_left _ hc
  have h2 := List.takeWhile_append_dropWhile pyIsSpace l
  rw [← h2]
  exact List.mem_append_right _ h1

theorem pyStrip_decompose (l : List Char) :
    ∃ a b, l = a ++ pyStrip l ++ b := by
  obtain ⟨b, hb⟩ := dropTrail_exists_suffix (p := pyIsSpace) (l.dropWhile pyIsSpace)
  refine ⟨l.takeWhile pyIsSpace, b, ?_⟩
  unfold pyStrip
  conv_lhs => rw [← List.takeWhile_append_dropWhile pyIsSpace l]
  rw [List.append_assoc, ← hb]

theorem pyStrip_eq_nil_forall {l : List Char} (h : pyStrip l = []) :
    ∀ c ∈ l, pyIsSpace c = true := by
  intro c hc
  unfold pyStrip at h
  have hsplit := List.takeWhile_append_dropWhile pyIsSpace l
  rw [← hsplit] at hc
  rcases List.mem_append.mp hc with h1 | h2
  · exact List.mem_takeWhile_imp h1
  · exact dropTrail_eq_nil_forall h c h2

theorem pyStrip_eq_nil_of_forall {l : List Char}
    (h : ∀ c ∈ l, pyIsSpace c = true) : pyStrip l = [] := by
  unfold pyStrip
  apply dropTrail_eq_nil_of_forall
  intro c hc
  have hsplit := List.takeWhile_append_dropWhile pyIsSpace l
  apply h
  rw [← hsplit]
  exact List.mem_append_right _ hc

/-! ### Lemmas about `splitNl`, `joinWith` and `lastCh` -/

theorem splitNl_ne_nil : ∀ s : List Char, splitNl s ≠ [] := by
  intro s
  induction s with
  | nil => exact List.cons_ne_nil _ _
  | cons c t ih =>
    rw [splitNl]
    split
    · exact List.cons_ne_nil _ _
    · split
      · exact List.cons_ne_nil _ _
      · exact List.cons_ne_nil _ _

theorem mem_splitNl_sub : ∀ (s : List Char) (g : List Char), g ∈ splitNl s →
    ∀ c ∈ g, c ∈ s := by
  intro s
  induction s with
  | nil =>
    intro g hg c hc
    rw [splitNl] at hg
    rcases List.mem_singleton.mp hg with rfl
    cases hc
  | cons a t ih =>
    intro g hg c hc
    rw [splitNl] at hg
    split at hg
    · rcases List.mem_cons.mp hg with rfl | hg'
      · cases hc
      · exact List.mem_cons_of_mem a (ih g hg' c hc)
    · rename_i hna
      rcases hm : splitNl t with _ | ⟨g0, gs⟩
      · exact absurd hm (splitNl_ne_nil t)
      · rw [hm] at hg
        rcases List.mem_cons.mp hg with rfl | hg'
        · rcases List.mem_cons.mp hc with rfl | hc'
          · exact List.mem_cons_self _ _
          · have : c ∈ t := ih g0 (hm ▸ List.mem_cons_self g0 gs) c hc'
            exact List.mem_cons_of_mem a this
        · have : g ∈ splitNl t := hm ▸ List.mem_cons_of_mem g0 hg'
          exact List.mem_cons_of_mem a (ih g this c hc)

theorem nl_not_mem_splitNl : ∀ (s : List Char) (g : List Char), g ∈ splitNl s →
    '\n' ∉ g := by
  intro s
  induction s with
  | nil =>
    intro g hg
    rw [splitNl] at hg
    rcases List.mem_singleton.mp hg with rfl
    exact List.not_mem_nil _
  | cons a t ih =>
    intro g hg
    rw [splitNl] at hg
    split at hg
    · rcases List.mem_cons.mp hg with rfl | hg'
      · exact List.not_mem_nil _
      · exact ih g hg'
    · rename_i hna
      rcases hm : splitNl t with _ | ⟨g0, gs⟩
      · exact absurd hm (splitNl_ne_nil t)
      · rw [hm] at hg
        rcases List.mem_cons.mp hg with rfl | hg'
        · intro hmem
          rcases List.mem_cons.mp hmem with heq | hmem'
          · rw [heq] at hna; simp at hna
          · exact ih g0 (hm ▸ List.mem_cons_self g0 gs) hmem'
        · exact ih g (hm ▸ List.mem_cons_of_mem g0 hg')

theorem splitNl_no_nl : ∀ {r : List Char}, '\n' ∉ r → splitNl r = [r] := by
  intro r
  induction r with
  | nil => intro _; rfl
  | cons c t ih =>
    intro h
    rw [splitNl]
    have hc : (c == '\n') = false := by
      have : c ≠ '\n' := fun hcn => h (hcn ▸ List.mem_cons_self c t)
      simpa using this
    rw [hc]
    simp only [Bool.false_eq_true, if_false]
    rw [ih fun ht => h (List.mem_cons_of_mem c ht)]

theorem splitNl_append_nl : ∀ {r : List Char} (s : List Char), '\n' ∉ r →
    splitNl (r ++ '\n' :: s) = r :: splitNl s := by
  intro r
  induction r with
  | nil =>
    intro s _
    rw [List.nil_append, splitNl]
    simp
  | cons c t ih =>
    intro s h
    rw [List.cons_append, splitNl]
    have hc : (c == '\n') = false := by
      have : c ≠ '\n' := fun hcn => h (hcn ▸ List.mem_cons_self c t)
      simpa using this
    rw [hc]
    simp only [Bool.false_eq_true, if_false]
    rw [ih s fun ht => h (List.mem_cons_of_mem c ht)]

theorem splitNl_joinNl : ∀ (rs : List (List Char)), rs ≠ [] →
    (∀ r ∈ rs, '\n' ∉ r) → splitNl (joinWith ['\n'] rs) = rs := by
  intro rs
  induction rs with
  | nil => intro h _; exact absurd rfl h
  | cons r rest ih =>
    intro _ hfree
    cases rest with
    | nil =>
      rw [joinWith]
      exact splitNl_no_nl (hfree r (List.mem_cons_self r []))
    | cons r2 rest2 =>
      rw [joinWith]
      have : r ++ ['\n'] ++ joinWith ['\n'] (r2 :: rest2) =
          r ++ '\n' :: joinWith ['\n'] (r2 :: rest2) := by
        rw [List.append_assoc]; rfl
      rw [this, splitNl_append_nl _ (hfree r (List.mem_cons_self r _)),
        ih (List.cons_ne_nil r2 rest2) fun x hx => hfree x (List.mem_cons_of_mem r hx)]

theorem joinWith_cons₂ (sep a b : List Char) (t : List (List Char)) :
    joinWith sep (a :: b :: t) = a ++ sep ++ joinWith sep (b :: t) := rfl

theorem joinSp_ne_nil : ∀ {g : List (List Char)}, g ≠ [] → (∀ x ∈ g, x ≠ []) →
    joinSp g ≠ [] := by
  intro g
  induction g with
  | nil => intro h _; exact absurd rfl h
  | cons x rest _ =>
    intro _ hx
    cases rest with
    | nil => exact hx x (List.mem_cons_self x [])
    | cons y rest2 =>
      rw [joinSp, joinWith_cons₂]
      intro hnil
      rcases List.append_eq_nil.mp hnil with ⟨h1, _⟩
      rcases List.append_eq_nil.mp h1 with ⟨_, h2⟩
      exact List.cons_ne_nil _ _ h2

theorem joinSp_push : ∀ {cur : List (List Char)}, cur ≠ [] → ∀ l : List Char,
    joinSp (cur ++ [l]) = joinSp cur ++ ' ' :: l := by
  intro cur
  induction cur with
  | nil => intro h; exact absurd rfl h
  | cons x rest ih =>
    intro _ l
    cases rest with
    | nil =>
      show joinSp [x, l] = joinSp [x] ++ ' ' :: l
      rw [joinSp, joinWith_cons₂, joinWith, joinSp, joinWith, List.append_assoc]
      rfl
    | cons y rest2 =>
      have h1 : joinSp ((y :: rest2) ++ [l]) = joinSp (y :: rest2) ++ ' ' :: l :=
        ih (List.cons_ne_nil y rest2) l
      show joinSp (x :: ((y :: rest2) ++ [l])) = joinSp (x :: y :: rest2) ++ ' ' :: l
      rw [joinSp, show x :: ((y :: rest2) ++ [l]) = x :: y :: (rest2 ++ [l]) from rfl,
        joinWith_cons₂, show (y :: (rest2 ++ [l])) = (y :: rest2) ++ [l] from rfl,
        show joinWith [' '] ((y :: rest2) ++ [l]) = joinSp ((y :: rest2) ++ [l]) from rfl,
        h1, show joinSp (x :: y :: rest2) = x ++ [' '] ++ joinWith [' '] (y :: rest2) from rfl]
      simp [joinSp, List.append_assoc]

theorem nl_not_mem_joinSp : ∀ {g : List (List Char)},
    (∀ x ∈ g, '\n' ∉ x) → '\n' ∉ joinSp g := by
  intro g
  induction g with
  | nil => intro _ h; cases h
  | cons x rest ih =>
    intro hfree
    cases rest with
    | nil =>
      rw [joinSp, joinWith]
      exact hfree x (List.mem_cons_self x [])
    | cons y rest2 =>
      rw [joinSp, joinWith_cons₂]
      intro hmem
      rcases List.mem_append.mp hmem with h1 | h2
      · rcases List.mem_append.mp h1 with ha | hb
        · exact hfree x (List.mem_cons_self x _) ha
        · exact absurd (List.mem_singleton.mp hb) (by decide)
      · exact ih (fun z hz => hfree z (List.mem_cons_of_mem x hz)) h2

theorem lastCh_cons_ne (c : Char) : ∀ {t : List Char}, t ≠ [] →
    lastCh (c :: t) = lastCh t := by
  intro t ht
  cases t with
  | nil => exact absurd rfl ht
  | cons d t' => rfl

theorem lastCh_append : ∀ (a : List Char) {b : List Char}, b ≠ [] →
    lastCh (a ++ b) = lastCh b := by
  intro a
  induction a with
  | nil => intro b _; rfl
  | cons c a' ih =>
    intro b hb
    rw [List.cons_append, lastCh_cons_ne c, ih hb]
    intro hnil
    rcases List.append_eq_nil.mp hnil with ⟨_, h2⟩
    exact hb h2

theorem lastCh_isSome : ∀ {l : List Char}, l ≠ [] → ∃ c, lastCh l = some c := by
  intro l
  induction l with
  | nil => intro h; exact absurd rfl h
  | cons c t ih =>
    intro _
    cases t with
    | nil => exact ⟨c, rfl⟩
    | cons d t' =>
      obtain ⟨e, he⟩ := ih (List.cons_ne_nil d t')
      exact ⟨e, by rw [lastCh_cons_ne c (List.cons_ne_nil d t')]; exact he⟩

theorem dropTrail_eq_self_of_last {p : Char → Bool} :
    ∀ {l : List Char} {c : Char}, lastCh l = some c → p c = false →
    dropTrail p l = l := by
  intro l
  induction l with
  | nil => intro c h _; cases h
  | cons a t ih =>
    intro c h hc
    cases t with
    | nil =>
      have hac : a = c := by simpa [lastCh] using h
      subst hac
      simp [dropTrail, hc]
    | cons d t' =>
      rw [lastCh_cons_ne a (List.cons_ne_nil d t')] at h
      have ht := ih h hc
      rw [dropTrail, ht]
      simp

theorem dropTrail_self_last {p : Char → Bool} :
    ∀ {l : List Char} {c : Char}, dropTrail p l = l → lastCh l = some c →
    p c = false := by
  intro l
  induction l with
  | nil => intro c _ h; cases h
  | cons a t ih =>
    intro c hd h
    rw [dropTrail] at hd
    split at hd
    · exact absurd hd.symm (List.cons_ne_nil a t)
    · rename_i hcond
      have hdt : dropTrail p t = t := by
        injection hd
      cases t with
      | nil =>
        have hac : a = c := by simpa [lastCh] using h
        subst hac
        rw [hdt] at hcond
        simpa using hcond
      | cons d t' =>
        rw [lastCh_cons_ne a (List.cons_ne_nil d t')] at h
        exact ih hdt h

/-! ### Facts about the kept lines and the ghost grouping -/

theorem keptLines_mem {text : List Char} {ignores : List (List Char)} {x : List Char}
    (hx : x ∈ keptLines text ignores) :
    ∃ y, y ∈ splitNl text ∧ keepLine ignores y = true ∧ x = pyStrip y := by
  unfold keptLines at hx
  obtain ⟨y, hy, hst⟩ := List.mem_map.mp hx
  exact ⟨y, (List.mem_filter.mp hy).1, (List.mem_filter.mp hy).2, hst.symm⟩

theorem keptLines_elem_ne_nil {text : List Char} {ignores : List (List Char)}
    {x : List Char} (hx : x ∈ keptLines text ignores) : x ≠ [] := by
  obtain ⟨y, _, hk, rfl⟩ := keptLines_mem hx
  unfold keepLine at hk
  rcases Bool.and_eq_true _ _ |>.mp hk with ⟨_, h2⟩
  intro hnil
  rw [hnil] at h2
  simp at h2

theorem keptLines_elem_strip {text : List Char} {ignores : List (List Char)}
    {x : List Char} (hx : x ∈ keptLines text ignores) : pyStrip x = x := by
  obtain ⟨y, _, _, rfl⟩ := keptLines_mem hx
  exact pyStrip_idem y

theorem keptLines_elem_nl_free {text : List Char} {ignores : List (List Char)}
    {x : List Char} (hx : x ∈ keptLines text ignores) : '\n' ∉ x := by
  obtain ⟨y, hy, _, rfl⟩ := keptLines_mem hx
  intro hmem
  exact nl_not_mem_splitNl text y hy (pyStrip_sub hmem)

theorem isEmpty_false_of_ne_nil {α : Type} {l : List α} (h : l ≠ []) :
    l.isEmpty = false := by
  cases l with
  | nil => exact absurd rfl h
  | cons a t => rfl

theorem joinSp_isEmpty_false {x : List Char} {rest : List (List Char)}
    (h : ∀ y ∈ x :: rest, y ≠ []) : (joinSp (x :: rest)).isEmpty = false :=
  isEmpty_false_of_ne_nil (joinSp_ne_nil (List.cons_ne_nil x rest) h)

theorem combineGroupsGo_flatten : ∀ (ls : List (List Char)) (cur : List (List Char)),
    (combineGroupsGo ls cur).flatten = cur ++ ls := by
  intro ls
  induction ls with
  | nil =>
    intro cur
    rw [combineGroupsGo]
    cases cur with
    | nil => rfl
    | cons x rest => simp
  | cons l ls ih =>
    intro cur
    rw [combineGroupsGo]
    by_cases hh : isHeader l = true
    · rw [if_pos hh, List.flatten_append, ih [l]]
      cases cur with
      | nil => simp
      | cons x rest => simp
    · rw [if_neg hh]
      cases cur with
      | nil =>
        have hemp : (([] : List (List Char))).isEmpty = true := rfl
        rw [if_pos hemp, List.flatten_cons, ih []]
        rfl
      | cons x rest =>
        have hemp : ((x :: rest : List (List Char))).isEmpty = false :=
          isEmpty_false_of_ne_nil (List.cons_ne_nil x rest)
        rw [if_neg (by rw [hemp]; exact Bool.false_ne_true), ih ((x :: rest) ++ [l])]
        simp

theorem combineGroupsGo_elem_ne_nil : ∀ (ls : List (List Char)) (cur : List (List Char)),
    ∀ g ∈ combineGroupsGo ls cur, g ≠ [] := by
  intro ls
  induction ls with
  | nil =>
    intro cur g hg
    rw [combineGroupsGo] at hg
    split at hg
    · cases hg
    · rename_i hne
      rcases List.mem_singleton.mp hg with rfl
      intro hnil
      rw [hnil] at hne
      exact hne rfl
  | cons l ls ih =>
    intro cur g hg
    rw [combineGroupsGo] at hg
    split at hg
    · rcases List.mem_append.mp hg with h1 | h2
      · split at h1
        · cases h1
        · rename_i hne
          rcases List.mem_singleton.mp h1 with rfl
          intro hnil
          rw [hnil] at hne
          exact hne rfl
      · exact ih [l] g h2
    · split at hg
      · rcases List.mem_cons.mp hg with rfl | hg'
        · exact List.cons_ne_nil l []
        · exact ih cur g hg'
      · exact ih (cur ++ [l]) g hg

theorem combineGo_eq_map : ∀ (ls : List (List Char)) (cur : List (List Char)),
    (∀ l ∈ ls, l ≠ []) → (∀ x ∈ cur, x ≠ []) →
    combineGo ls (joinSp cur) = (combineGroupsGo ls cur).map joinSp := by
  intro ls
  induction ls with
  | nil =>
    intro cur _ hcur
    rw [combineGo, combineGroupsGo]
    cases cur with
    | nil => rfl
    | cons x rest =>
      have he1 : (joinSp (x :: rest)).isEmpty = false := joinSp_isEmpty_false hcur
      have he2 : ((x :: rest : List (List Char))).isEmpty = false :=
        isEmpty_false_of_ne_nil (List.cons_ne_nil x rest)
      rw [if_neg (by rw [he1]; exact Bool.false_ne_true),
        if_neg (by rw [he2]; exact Bool.false_ne_true)]
      rfl
  | cons l ls ih =>
    intro cur hls hcur
    have hl : l ≠ [] := hls l (List.mem_cons_self l ls)
    have hls' : ∀ x ∈ ls, x ≠ [] := fun x hx => hls x (List.mem_cons_of_mem l hx)
    rw [combineGo, combineGroupsGo]
    by_cases hh : isHeader l = true
    · rw [if_pos hh, if_pos hh, List.map_append]
      have hrec : combineGo ls (joinSp [l]) = (combineGroupsGo ls [l]).map joinSp :=
        ih [l] hls' (by
          intro x hx
          rcases List.mem_singleton.mp hx with rfl
          exact hl)
      have hjl : joinSp [l] = l := rfl
      rw [hjl] at hrec
      rw [hrec]
      congr 1
      cases cur with
      | nil => rfl
      | cons x rest =>
        have he1 : (joinSp (x :: rest)).isEmpty = false := joinSp_isEmpty_false hcur
        have he2 : ((x :: rest : List (List Char))).isEmpty = false :=
          isEmpty_false_of_ne_nil (List.cons_ne_nil x rest)
        rw [if_neg (by rw [he1]; exact Bool.false_ne_true),
          if_neg (by rw [he2]; exact Bool.false_ne_true)]
        rfl
    · rw [if_neg hh, if_neg hh]
      cases cur with
      | nil =>
        have hemp : (([] : List (List Char))).isEmpty = true := rfl
        have hemp2 : (joinSp ([] : List (List Char))).isEmpty = true := rfl
        rw [if_pos hemp, if_pos hemp2, List.map_cons]
        rw [show joinSp ([] : List (List Char)) = [] from rfl,
          show ([] : List Char) = joinSp ([] : List (List Char)) from rfl,
          ih [] hls' (by intro x hx; cases hx)]
        rfl
      | cons x rest =>
        have he1 : (joinSp (x :: rest)).isEmpty = false := joinSp_isEmpty_false hcur
        have he2 : ((x :: rest : List (List Char))).isEmpty = false :=
          isEmpty_false_of_ne_nil (List.cons_ne_nil x rest)
        rw [if_neg (by rw [he1]; exact Bool.false_ne_true),
          if_neg (by rw [he2]; exact Bool.false_ne_true)]
        rw [show joinSp (x :: rest) ++ ' ' :: l = joinSp ((x :: rest) ++ [l]) from
          (joinSp_push (List.cons_ne_nil x rest) l).symm]
        exact ih ((x :: rest) ++ [l]) hls' (by
          intro z hz
          rcases List.mem_append.mp hz with h1 | h2
          · exact hcur z h1
          · rcases List.mem_singleton.mp h2 with rfl
            exact hl)

theorem joinSp_cons_cons (x y : List Char) (t : List (List Char)) :
    joinSp (x :: y :: t) = x ++ ' ' :: joinSp (y :: t) := by
  rw [joinSp, joinWith_cons₂, List.append_assoc]
  rfl

theorem lastCh_joinSp : ∀ (g : List (List Char)), g ≠ [] → (∀ x ∈ g, x ≠ []) →
    ∃ z ∈ g, lastCh (joinSp g) = lastCh z := by
  intro g
  induction g with
  | nil => intro h _; exact absurd rfl h
  | cons x rest ih =>
    intro _ hx
    cases rest with
    | nil => exact ⟨x, List.mem_cons_self x [], rfl⟩
    | cons y rest2 =>
      have hrec : ∀ z ∈ y :: rest2, z ≠ [] := fun z hz => hx z (List.mem_cons_of_mem x hz)
      obtain ⟨z, hz, hlast⟩ := ih (List.cons_ne_nil y rest2) hrec
      refine ⟨z, List.mem_cons_of_mem x hz, ?_⟩
      rw [joinSp_cons_cons, lastCh_append x (List.cons_ne_nil ' ' _),
        lastCh_cons_ne ' ' (joinSp_ne_nil (List.cons_ne_nil y rest2) hrec), hlast]

theorem pyStrip_joinSp : ∀ (g : List (List Char)), g ≠ [] →
    (∀ x ∈ g, x ≠ [] ∧ pyStrip x = x) → pyStrip (joinSp g) = joinSp g := by
  intro g hne helem
  have hne' : ∀ x ∈ g, x ≠ [] := fun x hx => (helem x hx).1
  cases g with
  | nil => exact absurd rfl hne
  | cons x rest =>
    have hx := helem x (List.mem_cons_self x rest)
    have hdwx : x.dropWhile pyIsSpace = x := (dropWhile_eq_self_parts hx.2).1
    have hdw : (joinSp (x :: rest)).dropWhile pyIsSpace = joinSp (x :: rest) := by
      cases hxs : x with
      | nil => exact absurd hxs hx.1
      | cons h t =>
        have hh : pyIsSpace h = false := dropWhile_self_head (hxs ▸ hdwx)
        cases rest with
        | nil =>
          rw [joinSp, joinWith, List.dropWhile_cons, hh]
          simp
        | cons y rest2 =>
          rw [joinSp_cons_cons, List.cons_append, List.dropWhile_cons, hh]
          simp
    have hdt : dropTrail pyIsSpace (joinSp (x :: rest)) = joinSp (x :: rest) := by
      obtain ⟨z, hz, hlast⟩ := lastCh_joinSp (x :: rest) (List.cons_ne_nil x rest) hne'
      have hzfacts := helem z hz
      have hdtz : dropTrail pyIsSpace z = z := (dropWhile_eq_self_parts hzfacts.2).2
      obtain ⟨c, hc⟩ := lastCh_isSome hzfacts.1
      have hcf : pyIsSpace c = false := dropTrail_self_last hdtz hc
      exact dropTrail_eq_self_of_last (hlast ▸ hc) hcf
    unfold pyStrip
    rw [hdw, hdt]

theorem cleanLinesLC_eq_map (text : List Char) (ignores : List (List Char)) :
    cleanLinesLC text ignores =
      (combineGroupsGo (keptLines text ignores) []).map joinSp := by
  unfold cleanLinesLC
  have h := combineGo_eq_map (keptLines text ignores) []
    (fun l hl => keptLines_elem_ne_nil hl) (by intro x hx; cases hx)
  rw [show joinSp ([] : List (List Char)) = [] from rfl] at h
  exact h

theorem cleanLinesLC_mem {text : List Char} {ignores : List (List Char)}
    {r : List Char} (hr : r ∈ cleanLinesLC text ignores) :
    ∃ g, g ≠ [] ∧ (∀ x ∈ g, x ∈ keptLines text ignores) ∧ r = joinSp g := by
  rw [cleanLinesLC_eq_map] at hr
  obtain ⟨g, hg, hjr⟩ := List.mem_map.mp hr
  refine ⟨g, combineGroupsGo_elem_ne_nil _ _ g hg, ?_, hjr.symm⟩
  intro x hx
  have hflat : x ∈ (combineGroupsGo (keptLines text ignores) []).flatten :=
    List.mem_flatten.mpr ⟨g, hg, hx⟩
  rw [combineGroupsGo_flatten] at hflat
  exact hflat

theorem cleanLinesLC_elem_facts {text : List Char} {ignores : List (List Char)}
    {r : List Char} (hr : r ∈ cleanLinesLC text ignores) :
    r ≠ [] ∧ pyStrip r = r ∧ '\n' ∉ r := by
  obtain ⟨g, hgne, hgmem, rfl⟩ := cleanLinesLC_mem hr
  refine ⟨joinSp_ne_nil hgne fun x hx => keptLines_elem_ne_nil (hgmem x hx), ?_, ?_⟩
  · exact pyStrip_joinSp g hgne fun x hx =>
      ⟨keptLines_elem_ne_nil (hgmem x hx), keptLines_elem_strip (hgmem x hx)⟩
  · exact nl_not_mem_joinSp fun x hx => keptLines_elem_nl_free (hgmem x hx)

/-! ### Header lines are stable under extension, and `combineGo` is idempotent -/

theorem isHeader_ne_nil {l : List Char} (h : isHeader l = true) : l ≠ [] := by
  intro hnil
  rw [hnil] at h
  exact absurd h (by decide)

theorem dropWhile_append_of_ne {p : Char → Bool} :
    ∀ {s : List Char}, s.dropWhile p ≠ [] → ∀ u,
    (s ++ u).dropWhile p = s.dropWhile p ++ u := by
  intro s
  induction s with
  | nil => intro h _; exact absurd rfl h
  | cons c t ih =>
    intro h u
    by_cases hc : p c = true
    · rw [List.dropWhile_cons, if_pos hc] at h
      rw [List.cons_append, List.dropWhile_cons, if_pos hc, List.dropWhile_cons, if_pos hc]
      exact ih h u
    · rw [List.cons_append, List.dropWhile_cons, if_neg hc, List.dropWhile_cons, if_neg hc]
      rfl

theorem isHeaderRest_ne_nil {x : List Char} (h : isHeaderRest x = true) : x ≠ [] := by
  intro hnil
  rw [hnil] at h
  exact absurd h (by decide)

theorem headSpace_append {t : List Char} (h : headSpace t = true) (u : List Char) :
    headSpace (t ++ u) = true := by
  cases t with
  | nil => exact absurd h (by decide)
  | cons d t' => exact h

theorem isHeaderRest_append {x : List Char} (h : isHeaderRest x = true)
    (u : List Char) : isHeaderRest (x ++ u) = true := by
  cases x with
  | nil => exact absurd h (by decide)
  | cons c t =>
    rw [isHeaderRest] at h
    rw [List.cons_append, isHeaderRest]
    by_cases hc : (c == '.') = true
    · rw [if_pos hc] at h ⊢
      exact headSpace_append h u
    · rw [if_neg hc] at h ⊢
      exact h

theorem isHeader_append {s : List Char} (h : isHeader s = true) (u : List Char) :
    isHeader (s ++ u) = true := by
  cases s with
  | nil => exact absurd h (by decide)
  | cons c t =>
    rw [isHeader] at h
    rcases (Bool.and_eq_true _ _).mp h with ⟨h1, h2⟩
    have hne : (c :: t).dropWhile Char.isDigit ≠ [] := isHeaderRest_ne_nil h2
    rw [show (c :: t) ++ u = c :: (t ++ u) from rfl, isHeader]
    apply (Bool.and_eq_true _ _).mpr
    refine ⟨h1, ?_⟩
    rw [show c :: (t ++ u) = (c :: t) ++ u from rfl, dropWhile_append_of_ne hne u]
    exact isHeaderRest_append h2 u

theorem combineGo_all_header : ∀ (ls : List (List Char)) (cur : List Char),
    isHeader cur = true → ∀ r ∈ combineGo ls cur, isHeader r = true := by
  intro ls
  induction ls with
  | nil =>
    intro cur hcur r hr
    rw [combineGo,
      if_neg (by rw [isEmpty_false_of_ne_nil (isHeader_ne_nil hcur)]
                 exact Bool.false_ne_true)] at hr
    rcases List.mem_singleton.mp hr with rfl
    exact hcur
  | cons l ls ih =>
    intro cur hcur r hr
    have hcne : ¬(cur.isEmpty = true) := by
      rw [isEmpty_false_of_ne_nil (isHeader_ne_nil hcur)]
      exact Bool.false_ne_true
    rw [combineGo] at hr
    by_cases hh : isHeader l = true
    · rw [if_pos hh, if_neg hcne] at hr
      rcases List.mem_append.mp hr with h1 | h2
      · rcases List.mem_singleton.mp h1 with rfl
        exact hcur
      · exact ih l hh r h2
    · rw [if_neg hh, if_neg hcne] at hr
      exact ih _ (isHeader_append hcur (' ' :: l)) r hr

theorem combineGo_decomp : ∀ ls : List (List Char), ∃ P M,
    combineGo ls [] = P ++ M ∧ (∀ x ∈ P, isHeader x = false) ∧
    (∀ m ∈ M, isHeader m = true) := by
  intro ls
  induction ls with
  | nil =>
    refine ⟨[], [], rfl, ?_, ?_⟩
    · intro x hx; cases hx
    · intro m hm; cases hm
  | cons l ls ih =>
    have hemp : (([] : List Char)).isEmpty = true := rfl
    by_cases hh : isHeader l = true
    · refine ⟨[], combineGo ls l, ?_, ?_, ?_⟩
      · rw [combineGo, if_pos hh, if_pos hemp]
      · intro x hx; cases hx
      · intro m hm
        exact combineGo_all_header ls l hh m hm
    · obtain ⟨P, M, hPM, hP, hM⟩ := ih
      refine ⟨l :: P, M, ?_, ?_, hM⟩
      · rw [combineGo, if_neg hh, if_pos hemp, hPM]
        rfl
      · intro x hx
        rcases List.mem_cons.mp hx with rfl | hx'
        · exact Bool.eq_false_iff.mpr hh
        · exact hP x hx'

theorem combineGo_headers_cons : ∀ (M : List (List Char)) (cur : List Char),
    isHeader cur = true → (∀ m ∈ M, isHeader m = true) →
    combineGo M cur = cur :: M := by
  intro M
  induction M with
  | nil =>
    intro cur hcur _
    rw [combineGo,
      if_neg (by rw [isEmpty_false_of_ne_nil (isHeader_ne_nil hcur)]
                 exact Bool.false_ne_true)]
  | cons m M' ih =>
    intro cur hcur hM
    have hm : isHeader m = true := hM m (List.mem_cons_self m M')
    rw [combineGo, if_pos hm,
      if_neg (by rw [isEmpty_false_of_ne_nil (isHeader_ne_nil hcur)]
                 exact Bool.false_ne_true),
      ih m hm fun x hx => hM x (List.mem_cons_of_mem m hx)]
    rfl

theorem combineGo_passthrough_then_headers :
    ∀ (P M : List (List Char)), (∀ x ∈ P, isHeader x = false) →
    (∀ m ∈ M, isHeader m = true) → combineGo (P ++ M) [] = P ++ M := by
  intro P
  induction P with
  | nil =>
    intro M _ hM
    cases M with
    | nil => rfl
    | cons m M' =>
      have hm : isHeader m = true := hM m (List.mem_cons_self m M')
      have hemp : (([] : List Char)).isEmpty = true := rfl
      rw [List.nil_append, combineGo, if_pos hm, if_pos hemp,
        combineGo_headers_cons M' m hm fun x hx => hM x (List.mem_cons_of_mem m hx)]
      rfl
  | cons q P' ih =>
    intro M hP hM
    have hq : isHeader q = false := hP q (List.mem_cons_self q P')
    have hemp : (([] : List Char)).isEmpty = true := rfl
    rw [List.cons_append, combineGo,
      if_neg (by rw [hq]; exact Bool.false_ne_true), if_pos hemp,
      ih M (fun x hx => hP x (List.mem_cons_of_mem q hx)) hM]

theorem combine_idem (ls : List (List Char)) :
    combineGo (combineGo ls []) [] = combineGo ls [] := by
  obtain ⟨P, M, hPM, hP, hM⟩ := combineGo_decomp ls
  rw [hPM]
  exact combineGo_passthrough_then_headers P M hP hM

/-! ### Pipeline lemmas for re-running the normalizer on its own output -/

theorem map_eq_self_of {f : List Char → List Char} :
    ∀ {l : List (List Char)}, (∀ x ∈ l, f x = x) → l.map f = l := by
  intro l
  induction l with
  | nil => intro _; rfl
  | cons a t ih =>
    intro h
    rw [List.map_cons, h a (List.mem_cons_self a t),
      ih fun x hx => h x (List.mem_cons_of_mem a hx)]

theorem joinNl_ne_nil {r : List Char} (hr : r ≠ []) (rs : List (List Char)) :
    joinWith ['\n'] (r :: rs) ≠ [] := by
  cases rs with
  | nil => exact hr
  | cons r2 rs2 =>
    rw [joinWith_cons₂]
    intro h
    rcases List.append_eq_nil.mp h with ⟨h1, _⟩
    rcases List.append_eq_nil.mp h1 with ⟨_, h2⟩
    exact List.cons_ne_nil _ _ h2

theorem keptLines_nil (ignores : List (List Char)) : keptLines [] ignores = [] := by
  unfold keptLines
  rw [splitNl]
  have hkl : keepLine ignores [] = false := by
    unfold keepLine
    rw [show pyStrip [] = [] from rfl]
    simp
  simp [List.filter_cons, hkl]

theorem cleanLinesLC_nil (ignores : List (List Char)) :
    cleanLinesLC [] ignores = [] := by
  rw [cleanLinesLC, keptLines_nil]
  rfl

theorem clean_textLC_idem {text : List Char} {ignores : List (List Char)}
    (H : ∀ r ∈ cleanLinesLC text ignores, keepLine ignores r = true) :
    clean_textLC (clean_textLC text ignores) ignores = clean_textLC text ignores := by
  rcases hrec : cleanLinesLC text ignores with _ | ⟨r, rs⟩
  · have hout : clean_textLC text ignores = [] := by
      unfold clean_textLC
      split
      · rfl
      · rw [hrec]; rfl
    rw [hout]
    rfl
  · have hfacts : ∀ x ∈ cleanLinesLC text ignores, x ≠ [] ∧ pyStrip x = x ∧ '\n' ∉ x :=
      fun x hx => cleanLinesLC_elem_facts hx
    have hrne : r ≠ [] :=
      (hfacts r (by rw [hrec]; exact List.mem_cons_self r rs)).1
    have htne : text ≠ [] := by
      intro hnil
      rw [hnil, cleanLinesLC_nil] at hrec
      exact List.cons_ne_nil r rs hrec.symm
    have hout : clean_textLC text ignores = joinWith ['\n'] (r :: rs) := by
      unfold clean_textLC
      rw [if_neg (by rw [isEmpty_false_of_ne_nil htne]; exact Bool.false_ne_true), hrec]
    have houtne : joinWith ['\n'] (r :: rs) ≠ [] := joinNl_ne_nil hrne rs
    have hsplit : splitNl (joinWith ['\n'] (r :: rs)) = r :: rs := by
      apply splitNl_joinNl (r :: rs) (List.cons_ne_nil r rs)
      intro x hx
      exact (hfacts x (by rw [hrec]; exact hx)).2.2
    have hkept : keptLines (joinWith ['\n'] (r :: rs)) ignores = r :: rs := by
      unfold keptLines
      rw [hsplit, List.filter_eq_self.mpr fun x hx => H x (by rw [hrec]; exact hx),
        map_eq_self_of fun x hx => (hfacts x (by rw [hrec]; exact hx)).2.1]
    have hidem : combineGo (r :: rs) [] = r :: rs := by
      have h0 : combineGo (cleanLinesLC text ignores) [] = cleanLinesLC text ignores := by
        unfold cleanLinesLC
        exact combine_idem (keptLines text ignores)
      rw [hrec] at h0
      exact h0
    have hclean2 : cleanLinesLC (joinWith ['\n'] (r :: rs)) ignores = r :: rs := by
      unfold cleanLinesLC
      rw [hkept]
      exact hidem
    rw [hout]
    unfold clean_textLC
    rw [if_neg (by rw [isEmpty_false_of_ne_nil houtne]; exact Bool.false_ne_true), hclean2]

/-! ### A substring characterization of `containsSub` -/

theorem startsWithLC_iff : ∀ (n h : List Char),
    startsWithLC n h = true ↔ ∃ b, h = n ++ b := by
  intro n
  induction n with
  | nil =>
    intro h
    constructor
    · intro _; exact ⟨h, rfl⟩
    · intro _; rfl
  | cons a as ih =>
    intro h
    cases h with
    | nil =>
      constructor
      · intro hf
        rw [startsWithLC] at hf
        cases hf
      · rintro ⟨b, hb⟩
        rw [List.cons_append] at hb
        cases hb
    | cons c t =>
      rw [startsWithLC]
      constructor
      · intro hx
        rcases (Bool.and_eq_true _ _).mp hx with ⟨h1, h2⟩
        rcases (ih t).mp h2 with ⟨b, rfl⟩
        have hac : a = c := beq_iff_eq.mp h1
        subst hac
        exact ⟨b, rfl⟩
      · rintro ⟨b, hb⟩
        rw [List.cons_append] at hb
        injection hb with h1 h2
        subst h1
        apply (Bool.and_eq_true _ _).mpr
        exact ⟨beq_iff_eq.mpr rfl, (ih t).mpr ⟨b, h2⟩⟩

theorem containsSub_iff : ∀ (h n : List Char),
    containsSub n h = true ↔ ∃ a b, h = a ++ n ++ b := by
  intro h
  induction h with
  | nil =>
    intro n
    rw [containsSub]
    constructor
    · intro he
      have hn : n = [] := List.isEmpty_iff.mp he
      subst hn
      exact ⟨[], [], rfl⟩
    · rintro ⟨a, b, hab⟩
      rcases List.append_eq_nil.mp hab.symm with ⟨han, _⟩
      rcases List.append_eq_nil.mp han with ⟨_, hn⟩
      rw [hn]
      rfl
  | cons c t ih =>
    intro n
    rw [containsSub, Bool.or_eq_true]
    constructor
    · rintro (h1 | h2)
      · rcases (startsWithLC_iff n (c :: t)).mp h1 with ⟨b, hb⟩
        exact ⟨[], b, by rw [hb]; rfl⟩
      · rcases (ih n).mp h2 with ⟨a, b, hab⟩
        exact ⟨c :: a, b, by rw [hab]; rfl⟩
    · rintro ⟨a, b, hab⟩
      cases a with
      | nil =>
        left
        apply (startsWithLC_iff n (c :: t)).mpr
        rw [List.nil_append] at hab
        exact ⟨b, hab⟩
      | cons a0 a' =>
        right
        apply (ih n).mpr
        rw [List.cons_append, List.cons_append] at hab
        injection hab with h1 h2
        exact ⟨a', b, h2⟩

theorem keepLine_false_of_match {ignores : List (List Char)} {P line : List Char}
    (hP : P ∈ ignores) (hm : containsSub (pyLower P) (pyLower line) = true) :
    keepLine ignores line = false := by
  unfold keepLine
  have hany : (ignores.any fun p => containsSub (pyLower p) (pyLower line)) = true :=
    List.any_eq_true.mpr ⟨P, hP, hm⟩
  rw [hany]
  rfl

theorem matched_not_in_kept {text : List Char} {ignores : List (List Char)}
    {P line : List Char} (hP : P ∈ ignores)
    (hm : containsSub (pyLower P) (pyLower line) = true) :
    line ∉ keptLines text ignores := by
  intro hmem
  obtain ⟨y, _, hk, heq⟩ := keptLines_mem hmem
  obtain ⟨a, b, hab⟩ := pyStrip_decompose y
  obtain ⟨a2, b2, hab2⟩ := (containsSub_iff (pyLower line) (pyLower P)).mp hm
  have hy2 : containsSub (pyLower P) (pyLower y) = true := by
    apply (containsSub_iff (pyLower y) (pyLower P)).mpr
    refine ⟨pyLower a ++ a2, b2 ++ pyLower b, ?_⟩
    rw [hab]
    unfold pyLower
    rw [List.map_append, List.map_append, ← heq]
    unfold pyLower at hab2
    rw [hab2]
    simp [List.append_assoc]
  have hkf := keepLine_false_of_match hP hy2
  rw [hkf] at hk
  cases hk

/-! ### Blank input yields empty output -/

theorem clean_textLC_blank {text : List Char} (ignores : List (List Char))
    (h : pyStrip text = []) : clean_textLC text ignores = [] := by
  have hall : ∀ c ∈ text, pyIsSpace c = true := pyStrip_eq_nil_forall h
  have hkept : keptLines text ignores = [] := by
    unfold keptLines
    have hfilter : (splitNl text).filter (keepLine ignores) = [] := by
      apply List.filter_eq_nil_iff.mpr
      intro y hy
      have hys : pyStrip y = [] := pyStrip_eq_nil_of_forall fun c hc =>
        hall c (mem_splitNl_sub text y hy c hc)
      have hkl : keepLine ignores y = false := by
        unfold keepLine
        rw [hys]
        simp
      simp [hkl]
    rw [hfilter]
    rfl
  unfold clean_textLC
  split
  · rfl
  · rw [cleanLinesLC, hkept]
    rfl

/-! ### The segmentation loop enumerated -/

theorem extract_go_enum (ignores : List String) : ∀ (ps : List Page) (i : Nat),
    extract_pdf_smart_go ignores true i ps =
      (List.enumFrom i ps).flatMap (layoutSpec ignores) := by
  intro ps
  induction ps with
  | nil => intro i; rfl
  | cons p ps ih =>
    intro i
    rw [extract_pdf_smart_go,
      show List.enumFrom i (p :: ps) = (i, p) :: List.enumFrom (i + 1) ps from rfl,
      List.flatMap_cons, ← ih (i + 1)]
    by_cases h3 : i + 1 = 3
    · rw [if_pos (show (true && (i + 1 == 3)) = true by rw [h3]; rfl),
        layoutSpec, if_pos (show (i, p).1 + 1 = 3 from h3), left_bbox, right_bbox, h3]
      rfl
    · have hbeq : (i + 1 == 3) = false := by
        rcases hb : (i + 1 == 3) with _ | _
        · rfl
        · exact absurd (beq_iff_eq.mp hb) h3
      rw [if_neg (show ¬(true && (i + 1 == 3)) = true by
            rw [Bool.true_and, hbeq]; exact Bool.false_ne_true),
        layoutSpec, if_neg (show ¬((i, p).1 + 1 = 3) from h3)]
      rfl

/-! ## The claims -/

/-- Claim C1: Conservation.  For every input text and ignore-phrase list there
is a partition of the kept (filtered, trimmed) lines into consecutive
nonempty groups such that the normalizer's output records are exactly the
space-joins of the groups, in order: every kept line lands in exactly one
output record (alone or merged), none is lost or duplicated. -/
theorem clean_text_conservation (text : String) (ignores : List String) :
    ∃ groups : List (List (List Char)),
      groups.flatten = keptLines text.data (ignores.map String.data) ∧
      (∀ g ∈ groups, g ≠ []) ∧
      cleanLinesLC text.data (ignores.map String.data) = groups.map joinSp := by
  refine ⟨combineGroupsGo (keptLines text.data (ignores.map String.data)) [], ?_, ?_, ?_⟩
  · rw [combineGroupsGo_flatten]
    rfl
  · exact combineGroupsGo_elem_ne_nil _ _
  · exact cleanLinesLC_eq_map _ _

/-- Claim C2: on the three example lines with an empty ignore list, the
normalizer returns exactly the two merged lines, in order. -/
theorem clean_text_example_merge :
    clean_text "1. Inspection done. The unit\nwas unable to be tested.\n2. Found OK." [] =
      "1. Inspection done. The unit was unable to be tested.\n2. Found OK." := by
  decide

set_option maxRecDepth 8192 in
/-- Claim C3 counterexample: with the configured `IGNORE_PHRASES`, merging two
kept lines can create a line containing the multi-word phrase
"Accurate Industries", which the second run's filter then drops, so
`clean_text` is not idempotent as claimed. -/
theorem clean_text_not_idempotent_cx :
    clean_text (clean_text "1. foo Accurate\nIndustries bar" IGNORE_PHRASES)
        IGNORE_PHRASES ≠
      clean_text "1. foo Accurate\nIndustries bar" IGNORE_PHRASES := by
  decide

/-- Claim C3 (amended): normalization is idempotent provided every record of
the first output still passes the ignore filter (in particular always when
the ignore-phrase list is empty); the counterexample shows the unrestricted
claim fails when a merge creates a new match of a multi-word ignore phrase. -/
theorem clean_text_idem_of_kept (text : String) (ignores : List String)
    (H : ∀ r ∈ cleanLines text ignores, keeps ignores r = true) :
    clean_text (clean_text text ignores) ignores = clean_text text ignores := by
  unfold clean_text
  have hdata : (String.mk (clean_textLC text.data (ignores.map String.data))).data =
      clean_textLC text.data (ignores.map String.data) := rfl
  rw [hdata]
  congr 1
  apply clean_textLC_idem
  intro r hr
  have hH := H (String.mk r) (by
    unfold cleanLines
    exact List.mem_map.mpr ⟨r, hr, rfl⟩)
  unfold keeps at hH
  exact hH

set_option maxRecDepth 8192 in
/-- Witness for the amended C3 at a concrete input with nonempty output. -/
theorem clean_text_idem_of_kept_witness :
    clean_text (clean_text
        "1. Inspection done. The unit\nwas unable to be tested.\n2. Found OK." []) [] =
      clean_text "1. Inspection done. The unit\nwas unable to be tested.\n2. Found OK." [] :=
  clean_text_idem_of_kept
    "1. Inspection done. The unit\nwas unable to be tested.\n2. Found OK." [] (by decide)

/-- Claim C4: a line whose lowercase form contains the lowercase form of a
configured ignore phrase fails the filter and is never among the kept lines
of any input — hence (since every record emitted as "its own" line is a kept
line) it never appears as its own record in the normalized output. -/
theorem ignore_phrase_elim (ignores : List String) (P line text : String)
    (hP : P ∈ ignores)
    (hm : containsSub (pyLower P.data) (pyLower line.data) = true) :
    keeps ignores line = false ∧
      line.data ∉ keptLines text.data (ignores.map String.data) := by
  constructor
  · unfold keeps
    exact keepLine_false_of_match (List.mem_map.mpr ⟨P, hP, rfl⟩) hm
  · exact matched_not_in_kept (List.mem_map.mpr ⟨P, hP, rfl⟩) hm

/-- Witness for C4 on the spec's Example 2 line. -/
theorem ignore_phrase_elim_witness :
    keeps IGNORE_PHRASES "Accurate Industries - Page 3" = false ∧
      ("Accurate Industries - Page 3" : String).data ∉
        keptLines ("Accurate Industries - Page 3\n1. All good" : String).data
          (IGNORE_PHRASES.map String.data) :=
  ignore_phrase_elim IGNORE_PHRASES "Page" "Accurate Industries - Page 3"
    "Accurate Industries - Page 3\n1. All good" (by decide) (by decide)

/-- Claim C5: the normalizer's state machine emits a non-header line met with
no open comment verbatim as its own record (never merging it into a later
comment), and appends a non-header line met with an open comment to that
comment's buffer with a single space. -/
theorem combine_step_spec (ls : List (List Char)) (l cur : List Char)
    (hl : isHeader l = false) (hcur : cur.isEmpty = false) :
    combineGo (l :: ls) [] = l :: combineGo ls [] ∧
    combineGo (l :: ls) cur = combineGo ls (cur ++ ' ' :: l) := by
  have hemp : (([] : List Char)).isEmpty = true := rfl
  constructor
  · rw [combineGo, if_neg (by rw [hl]; exact Bool.false_ne_true), if_pos hemp]
  · rw [combineGo, if_neg (by rw [hl]; exact Bool.false_ne_true),
      if_neg (by rw [hcur]; exact Bool.false_ne_true)]

/-- Witness for C5 at concrete lines. -/
theorem combine_step_spec_witness :
    combineGo [['a', 'b']] [] = ['a', 'b'] :: combineGo [] [] ∧
    combineGo [['a', 'b']] ['1', '.', ' ', 'x'] =
      combineGo [] (['1', '.', ' ', 'x'] ++ ' ' :: ['a', 'b']) :=
  combine_step_spec [] ['a', 'b'] ['1', '.', ' ', 'x'] (by decide) (by decide)

/-- Claim C6: with splitting enabled (the default), the output is, in page
order, one "Full Page" block per page except page 3, which yields the
"As Found (Left)" block from `(0, 0, width/2, height)` followed by the
"As Left (Right)" block from `(width/2, 0, width, height)`. -/
theorem extract_pdf_smart_layout (pages : List Page) (ignores : List String) :
    extract_pdf_smart pages true ignores =
      pages.enum.flatMap (layoutSpec ignores) := by
  unfold extract_pdf_smart
  rw [extract_go_enum ignores pages 0]
  rfl

/-- Claim C7: a null or whitespace-only extraction result is a success, not a
fault: the `or ""` fallback plus normalization yield the empty string as the
block content, and segmentation still emits the normal block. -/
theorem empty_extraction_success (ignores : List String) (o : Option String)
    (p : Page) (ho : pyStrip (orEmpty o).data = [])
    (hp : p.extractText none = o) :
    clean_text (orEmpty o) ignores = "" ∧
      extract_pdf_smart [p] false ignores = [⟨1, "Full Page", ""⟩] := by
  have h1 : clean_text (orEmpty o) ignores = "" := by
    unfold clean_text
    rw [clean_textLC_blank _ ho]
  refine ⟨h1, ?_⟩
  unfold extract_pdf_smart
  rw [extract_pdf_smart_go,
    if_neg (show ¬(false && (0 + 1 == 3)) = true by
      rw [Bool.false_and]; exact Bool.false_ne_true),
    hp, h1]
  rfl

/-- Witness for C7: a page whose extractor always returns `None`. -/
theorem empty_extraction_success_witness :
    clean_text (orEmpty none) [] = "" ∧
      extract_pdf_smart [⟨612, 792, fun _ => none⟩] false [] =
        [⟨1, "Full Page", ""⟩] :=
  empty_extraction_success [] none ⟨612, 792, fun _ => none⟩ (by decide) rfl

/-- Claim C8: for positive page dimensions, the left and right half-page
rectangles cover exactly the full-page box, and they overlap only in the
zero-width line at `x = width / 2`. -/
theorem split_bbox_symmetry (w h : ℚ) (hw : 0 < w) (hh : 0 < h) :
    rectSet (left_bbox w h) ∪ rectSet (right_bbox w h) = rectSet (0, 0, w, h) ∧
    rectSet (left_bbox w h) ∩ rectSet (right_bbox w h) =
      {q : ℚ × ℚ | q.1 = w / 2 ∧ 0 ≤ q.2 ∧ q.2 ≤ h} := by
  constructor
  · ext ⟨x, y⟩
    simp only [rectSet, left_bbox, right_bbox, Set.mem_union, Set.mem_setOf_eq]
    constructor
    · rintro (⟨h1, h2, h3, h4⟩ | ⟨h1, h2, h3, h4⟩)
      · exact ⟨by linarith, by linarith, h3, h4⟩
      · exact ⟨by linarith, by linarith, h3, h4⟩
    · rintro ⟨h1, h2, h3, h4⟩
      rcases le_total x (w / 2) with hx | hx
      · exact Or.inl ⟨h1, hx, h3, h4⟩
      · exact Or.inr ⟨hx, h2, h3, h4⟩
  · ext ⟨x, y⟩
    simp only [rectSet, left_bbox, right_bbox, Set.mem_inter_iff, Set.mem_setOf_eq]
    constructor
    · rintro ⟨⟨h1, h2, h3, h4⟩, h5, h6, h7, h8⟩
      exact ⟨le_antisymm h2 h5, h3, h4⟩
    · rintro ⟨hx, hy1, hy2⟩
      subst hx
      refine ⟨⟨by linarith, le_refl _, hy1, hy2⟩, le_refl _, by linarith, hy1, hy2⟩

/-- Witness for C8 at US-Letter page dimensions. -/
theorem split_bbox_symmetry_witness :
    (0 : ℚ) < 612 ∧ (0 : ℚ) < 792 ∧
    (rectSet (left_bbox 612 792) ∪ rectSet (right_bbox 612 792) =
        rectSet (0, 0, 612, 792) ∧
      rectSet (left_bbox 612 792) ∩ rectSet (right_bbox 612 792) =
        {q : ℚ × ℚ | q.1 = 612 / 2 ∧ 0 ≤ q.2 ∧ q.2 ≤ 792}) :=
  ⟨by norm_num, by norm_num,
    split_bbox_symmetry 612 792 (by norm_num) (by norm_num)⟩

/-- Claim C9: the normalizer is total at the boundary: a null or empty input
returns the empty string, and every string input returns a string (the
embedding is a total function — no exception path exists). -/
theorem clean_text_total_boundary (ignores : List String) :
    clean_text_opt none ignores = "" ∧ clean_text_opt (some "") ignores = "" ∧
    ∀ t : String, ∃ r : String, clean_text_opt (some t) ignores = r := by
  refine ⟨rfl, rfl, fun t => ⟨_, rfl⟩⟩

/-- Claim C10: every record of the normalized output is nonempty, carries no
leading or trailing whitespace, and is the single-space join of a nonempty
group of kept lines (so merged comments use exactly one space per join). -/
theorem clean_lines_invariant (text : String) (ignores : List String) (r : String)
    (hr : r ∈ cleanLines text ignores) :
    r ≠ "" ∧ pyStrip r.data = r.data ∧
      ∃ g, g ≠ [] ∧
        (∀ x ∈ g, x ∈ keptLines text.data (ignores.map String.data)) ∧
        r.data = joinSp g := by
  unfold cleanLines at hr
  obtain ⟨rl, hrl, hmk⟩ := List.mem_map.mp hr
  subst hmk
  have hfacts := cleanLinesLC_elem_facts hrl
  obtain ⟨g, hg1, hg2, hg3⟩ := cleanLinesLC_mem hrl
  refine ⟨?_, hfacts.2.1, g, hg1, hg2, hg3⟩
  intro hempty
  have hnil : rl = [] := congrArg String.data hempty
  exact hfacts.1 hnil

/-- Witness for C10 at a concrete input. -/
theorem clean_lines_invariant_witness :
    ("2. Found OK." : String) ≠ "" ∧
    pyStrip ("2. Found OK." : String).data = ("2. Found OK." : String).data ∧
      ∃ g, g ≠ [] ∧
        (∀ x ∈ g, x ∈ keptLines ("2. Found OK." : String).data
          (([] : List String).map String.data)) ∧
        ("2. Found OK." : String).data = joinSp g :=
  clean_lines_invariant "2. Found OK." [] "2. Found OK." (by decide)
